import Mathlib

/-!
Shallow embedding of the quick-notes client core (storage adapter, note
store, merge importer, debounced flush) together with proofs about the
claims of its specification.

Modelling conventions:
  * JavaScript numbers used as timestamps are modelled as `Int`
    (millisecond epoch stamps; no overflow or float behaviour is relevant
    at these magnitudes and all arithmetic used is exact).
  * Strings are modelled as Lean `String`; case mapping and whitespace
    classification use the ASCII behaviour of `Char.toLower` /
    `Char.isWhitespace`, matching the JS behaviour on ASCII text.
  * JSON values are modelled by the inductive `Json`; serialization and
    parsing are modelled as the identity on this tree (JSON round-trips
    the strings and integers appearing here exactly).
  * The stable Array.prototype.sort with comparator
    (a, b) => b.updatedAt - a.updatedAt is modelled by
    `List.insertionSort` with the relation `byStamp`: a stable sort for a
    total preorder has a unique output, so any stable sort models it.
-/

namespace QuickNotes

/-- A well-formed note as produced by the note store operations. -/
structure Note where
  id : String
  title : String
  content : String
  updatedAt : Int
deriving DecidableEq, Repr

/-- Descending-by-stamp comparison: `a` may precede `b` when the stamp of
`b` is at most the stamp of `a`. -/
abbrev byStamp {α : Type} (stamp : α → Int) (a b : α) : Prop :=
  stamp b ≤ stamp a

instance byStamp_total {α : Type} (stamp : α → Int) :
    IsTotal α (byStamp stamp) :=
  ⟨fun a b => le_total (stamp b) (stamp a)⟩

instance byStamp_trans {α : Type} (stamp : α → Int) :
    IsTrans α (byStamp stamp) :=
  ⟨fun _ _ _ h₁ h₂ => le_trans h₂ h₁⟩

/-- Stable descending sort by a stamp, modelling
sort((a, b) => stamp(b) - stamp(a)) on arrays. -/
def sortByStamp {α : Type} (stamp : α → Int) (l : List α) : List α :=
  l.insertionSort (byStamp stamp)

/-- Descending sort of notes by their updatedAt field. -/
def sortNotes (l : List Note) : List Note :=
  sortByStamp Note.updatedAt l

/-- JSON value trees, as produced by JSON.parse. -/
inductive Json where
  | null : Json
  | bool (b : Bool) : Json
  | num (n : Int) : Json
  | str (s : String) : Json
  | arr (elems : List Json) : Json
  | obj (fields : List (String × Json)) : Json

/-- Field lookup in an object literal (objects carry no duplicate keys in
this model, matching the result of JSON.parse). -/
def lookupField : List (String × Json) → String → Option Json
  | [], _ => none
  | (k, v) :: fs, key => if k = key then some v else lookupField fs key

/-- Property access `j.key` in JavaScript: on null it throws (modelled by
`Except.error`), on an object it looks the field up (`none` stands for
the undefined value), and on the remaining primitives and arrays it
yields undefined. -/
def getField : Json → String → Except Unit (Option Json)
  | .null, _ => .error ()
  | .obj fs, key => .ok (lookupField fs key)
  | _, _ => .ok none

/-- The contents found under the durable storage key: the key may be
absent (or empty), hold text that JSON.parse rejects, or hold text
parsing to a JSON value. -/
inductive StorageContent where
  | absent : StorageContent
  | corrupt : StorageContent
  | value (j : Json) : StorageContent

/-- A record as it sits in memory right after load. The id is a string
(enforced by the load filter) and updatedAt a number (enforced by the
normalization), but title and content are whatever JSON value the payload
carried, since the code assigns them with only null/undefined defaulting. -/
structure LoadedNote where
  id : String
  title : Json
  content : Json
  updatedAt : Int

/-- View of a well-formed note as a loaded record. -/
def Note.toLoaded (n : Note) : LoadedNote :=
  ⟨n.id, .str n.title, .str n.content, n.updatedAt⟩

/-- The filter phase of load: keep the elements whose id field is a
string, propagating the exception raised by property access on a null
element (which the enclosing try/catch later turns into an empty result). -/
def filterStringId : List Json → Except Unit (List Json)
  | [] => .ok []
  | j :: js =>
    match getField j "id" with
    | .error _ => .error ()
    | .ok idv =>
      match filterStringId js with
      | .error _ => .error ()
      | .ok rest =>
        match idv with
        | some (.str _) => .ok (j :: rest)
        | _ => .ok rest

/-- The map phase of load: normalization of one surviving record.
Missing or null title becomes "Untitled", missing or null content becomes
the empty string, a non-numeric updatedAt becomes the current time. The
defaults taken on a non-string id are unreachable for records that passed
the filter phase. -/
def normalizeRecord (now : Int) (j : Json) : LoadedNote :=
  { id :=
      match getField j "id" with
      | .ok (some (.str s)) => s
      | _ => ""
    title :=
      match getField j "title" with
      | .ok (some .null) => .str "Untitled"
      | .ok (some v) => v
      | _ => .str "Untitled"
    content :=
      match getField j "content" with
      | .ok (some .null) => .str ""
      | .ok (some v) => v
      | _ => .str ""
    updatedAt :=
      match getField j "updatedAt" with
      | .ok (some (.num k)) => k
      | _ => now }

/-- Load from the durable key: empty on absence, parse failure, non-array
content, or any exception raised while filtering (a null element); else
the surviving records, normalized and sorted descending by updatedAt. -/
def loadNotesFromStorage (now : Int) : StorageContent → List LoadedNote
  | .absent => []
  | .corrupt => []
  | .value j =>
    match j with
    | .arr elems =>
      match filterStringId elems with
      | .error _ => []
      | .ok kept =>
        sortByStamp LoadedNote.updatedAt (kept.map (normalizeRecord now))
    | _ => []

/-- Serialization of a well-formed note, key order as in the literal. -/
def Note.toJson (n : Note) : Json :=
  .obj [("id", .str n.id), ("title", .str n.title),
        ("content", .str n.content), ("updatedAt", .num n.updatedAt)]

/-- Save: serialize the full collection and overwrite the durable key.
This models the successful write; a quota or serialization failure is
swallowed by the code and leaves the previous content in place. -/
def saveNotesToStorage (notes : List Note) : StorageContent :=
  .value (.arr (notes.map Note.toJson))

/-- ASCII lowercase mapping over the characters of a string, modelling
String.prototype.toLowerCase on ASCII text. -/
def toLowerStr (s : String) : String :=
  ⟨s.data.map Char.toLower⟩

/-- ASCII uppercase mapping over the characters of a string, modelling
String.prototype.toUpperCase on ASCII text. -/
def toUpperStr (s : String) : String :=
  ⟨s.data.map Char.toUpper⟩

/-- Model of String.prototype.trim: drop whitespace from both ends. -/
def trimChars (s : String) : String :=
  ⟨(((s.data.dropWhile Char.isWhitespace).reverse.dropWhile
      Char.isWhitespace).reverse)⟩

/-- Substring test on character lists: some suffix starts with the
pattern. -/
def charsContains (pat : List Char) : List Char → Bool
  | [] => pat.isEmpty
  | c :: cs => pat.isPrefixOf (c :: cs) || charsContains pat cs

/-- Model of String.prototype.includes. -/
def strContains (s pat : String) : Bool :=
  charsContains pat.data s.data

/-- The search filter: trim and lowercase the query; an empty result is
the whole collection, otherwise keep the notes whose lowercased title or
content contains the query. A pure read-side function. -/
def filteredNotes (notes : List Note) (query : String) : List Note :=
  let q := toLowerStr (trimChars query)
  if q = "" then notes
  else
    notes.filter fun n =>
      strContains (toLowerStr n.title) q || strContains (toLowerStr n.content) q

/-- Digit characters for base-36 as produced by Number.prototype.toString. -/
def base36DigitChar (d : Nat) : Char :=
  if d < 10 then Char.ofNat (48 + d) else Char.ofNat (87 + d)

/-- Accumulator loop for the base-36 rendering; the fuel argument is a
structural bound on the number of digits (any fuel at least the digit
count gives the exact rendering, and the callers pass n + 1). -/
def natToBase36Go : Nat → Nat → List Char → List Char
  | 0, _, acc => acc
  | fuel + 1, n, acc =>
    if n = 0 then acc
    else natToBase36Go fuel (n / 36) (base36DigitChar (n % 36) :: acc)

/-- Model of n.toString(36) for a nonnegative number. -/
def natToBase36 (n : Nat) : String :=
  if n = 0 then "0" else ⟨natToBase36Go (n + 1) n []⟩

/-- Model of generateId: base-36 rendering of the current time joined
with a random base-36 fragment, uppercased. The random fragment (the
slice of Math.random().toString(36)) is an input of the model. -/
def generateId (now : Int) (rand : String) : String :=
  toUpperStr (natToBase36 now.toNat ++ rand)

/-- A title/content patch as passed to updateSelected; absent fields are
left untouched by the object spread. -/
structure NotePatch where
  title : Option String
  content : Option String
deriving DecidableEq, Repr

/-- Effect of spreading a patch over a note and stamping it with now. -/
def applyPatch (n : Note) (p : NotePatch) (now : Int) : Note :=
  { id := n.id
    title := p.title.getD n.title
    content := p.content.getD n.content
    updatedAt := now }

/-- The component state the claims quantify over: the in-memory
collection and the current selection. -/
structure AppState where
  notes : List Note
  selectedId : Option String
deriving DecidableEq, Repr

/-- Model of createNote: build a fresh note stamped now, prepend it, and
select it. -/
def createNote (s : AppState) (now : Int) (rand : String) : AppState :=
  let newNote : Note :=
    { id := generateId now rand, title := "Untitled", content := ""
      updatedAt := now }
  { notes := newNote :: s.notes, selectedId := some newNote.id }

/-- Model of deleteNote: drop the notes with the given id and clear the
selection when it pointed at that id. -/
def deleteNote (s : AppState) (id : String) : AppState :=
  { notes := s.notes.filter fun n => n.id ≠ id
    selectedId := if s.selectedId = some id then none else s.selectedId }

/-- Selecting a note from the list. -/
def selectNote (s : AppState) (id : String) : AppState :=
  { s with selectedId := some id }

/-- The note the editor is bound to: the first note whose id equals the
selection (a string never equals null, so no selection finds nothing). -/
def selectedNote (s : AppState) : Option Note :=
  s.notes.find? fun n => some n.id = s.selectedId

/-- Model of updateSelected: a no-op without a selected note; otherwise
spread the patch over every note carrying the selected id, stamp it with
now, and re-sort descending. -/
def updateSelected (s : AppState) (p : NotePatch) (now : Int) : AppState :=
  match selectedNote s with
  | none => s
  | some sel =>
    { s with
      notes :=
        sortNotes (s.notes.map fun n =>
          if n.id = sel.id then applyPatch n p now else n) }

/-- Association-list model of a JavaScript Map keyed by note ids:
iteration order is key insertion order, and setting an existing key
updates the value in place. -/
def mapGet : List (String × Note) → String → Option Note
  | [], _ => none
  | (k, v) :: m, key => if k = key then some v else mapGet m key

/-- Map.set: replace in place when the key exists, append otherwise. -/
def mapSet : List (String × Note) → String → Note → List (String × Note)
  | [], key, v => [(key, v)]
  | (k, w) :: m, key, v =>
    if k = key then (key, v) :: m else (k, w) :: mapSet m key v

/-- One step of the merge loop: record the note under its id unless an
entry with a strictly greater or equal stamp is already there (the
condition in the code is a strict greater-than on the incoming stamp). -/
def mergeStep (m : List (String × Note)) (n : Note) :
    List (String × Note) :=
  match mapGet m n.id with
  | none => mapSet m n.id n
  | some existing =>
    if existing.updatedAt < n.updatedAt then mapSet m n.id n else m

/-- The merge-by-id importer on decoded collections: fold the current
collection and then the imported one into the map, read the values back
in key insertion order, and sort descending. -/
def importMerge (cur imp : List Note) : List Note :=
  sortNotes (((cur ++ imp).foldl mergeStep []).map Prod.snd)

/-- Shape of an imported payload after the file read: the text may fail
to parse, parse to a non-array value, or parse to an array. Array
elements are modelled as well-formed notes; the code performs no per
element validation, so payload arrays of other shapes are outside this
model. -/
inductive ImportPayload where
  | corrupt : ImportPayload
  | nonArray : ImportPayload
  | array (imported : List Note) : ImportPayload

/-- Model of importNotes: parse failures and non-array payloads abort
with no change (the catch block and the isArray guard); an array payload
is merged by id. -/
def importNotes (notes : List Note) : ImportPayload → List Note
  | .corrupt => notes
  | .nonArray => notes
  | .array imported => importMerge notes imported

/-- Lifting the importer to the component state: the selection is not
touched. -/
def importApply (s : AppState) (p : ImportPayload) : AppState :=
  { s with notes := importNotes s.notes p }

/-- State of the debounced flush: the single timer slot (deadline and the
collection captured by the scheduled callback) and the log of writes
performed so far. A single Option slot is the faithful model of the
single saveTimer ref: scheduling always clears the previous handle first,
so at most one timer is ever pending. -/
structure DebounceState where
  pendingAt : Option (Int × List Note)
  writes : List (Int × List Note)
deriving DecidableEq, Repr

/-- Advance the clock to time t, firing the pending timer when its
deadline has been reached. -/
def fireIfDue (s : DebounceState) (t : Int) : DebounceState :=
  match s.pendingAt with
  | some (d, ns) =>
    if d ≤ t then { pendingAt := none, writes := s.writes ++ [(d, ns)] }
    else s
  | none => s

/-- A collection mutation at time t: any timer already due has fired
beforehand; the effect then clears the pending timer and schedules a
flush of the new collection 300 milliseconds later. -/
def onMutation (s : DebounceState) (t : Int) (ns : List Note) :
    DebounceState :=
  let s := fireIfDue s t
  { s with pendingAt := some (t + 300, ns) }

/-- Run a burst of mutations from an idle start and then let the clock
run past the last deadline, draining the remaining timer. -/
def runBurst (events : List (Int × List Note)) : DebounceState :=
  let final := events.foldl (fun s e => onMutation s e.1 e.2) ⟨none, []⟩
  match final.pendingAt with
  | some (d, ns) => { pendingAt := none, writes := final.writes ++ [(d, ns)] }
  | none => final

/-- The collection invariant of the data model: descending order by
updatedAt. -/
def SortedNotes (l : List Note) : Prop :=
  List.Sorted (byStamp Note.updatedAt) l

instance (l : List Note) : Decidable (SortedNotes l) :=
  inferInstanceAs (Decidable (List.Pairwise _ l))

/-- States reachable by the component: start empty, let the clock move
forward, and apply the operations of the source at the current clock.
The load and the array import take payload collections as they come,
with no constraint on their timestamps. -/
inductive Reachable : AppState → Int → Prop where
  | init (now : Int) : Reachable ⟨[], none⟩ now
  | tick {s : AppState} {now : Int} (now' : Int) :
      Reachable s now → now ≤ now' → Reachable s now'
  | loadStep {s : AppState} {now : Int} (st : StorageContent)
      (ns : List Note) :
      Reachable s now →
      loadNotesFromStorage now st = ns.map Note.toLoaded →
      Reachable ⟨ns, s.selectedId⟩ now
  | create {s : AppState} {now : Int} (rand : String) :
      Reachable s now → Reachable (createNote s now rand) now
  | update {s : AppState} {now : Int} (p : NotePatch) :
      Reachable s now → Reachable (updateSelected s p now) now
  | del {s : AppState} {now : Int} (id : String) :
      Reachable s now → Reachable (deleteNote s id) now
  | sel {s : AppState} {now : Int} (id : String) :
      Reachable s now → Reachable (selectNote s id) now
  | autosel {s : AppState} {now : Int} (n : Note) (rest : List Note) :
      Reachable s now → s.selectedId = none → s.notes = n :: rest →
      Reachable ⟨s.notes, some n.id⟩ now
  | importStep {s : AppState} {now : Int} (p : ImportPayload) :
      Reachable s now → Reachable (importApply s p) now

/-- States reachable when every externally supplied timestamp (loaded
from storage or carried by an imported payload) is bounded by the clock
at the moment it enters the system: no note from the outside is stamped
in the future. -/
inductive ReachableB : AppState → Int → Prop where
  | init (now : Int) : ReachableB ⟨[], none⟩ now
  | tick {s : AppState} {now : Int} (now' : Int) :
      ReachableB s now → now ≤ now' → ReachableB s now'
  | loadStep {s : AppState} {now : Int} (st : StorageContent)
      (ns : List Note) :
      ReachableB s now →
      loadNotesFromStorage now st = ns.map Note.toLoaded →
      (∀ n ∈ ns, n.updatedAt ≤ now) →
      ReachableB ⟨ns, s.selectedId⟩ now
  | create {s : AppState} {now : Int} (rand : String) :
      ReachableB s now → ReachableB (createNote s now rand) now
  | update {s : AppState} {now : Int} (p : NotePatch) :
      ReachableB s now → ReachableB (updateSelected s p now) now
  | del {s : AppState} {now : Int} (id : String) :
      ReachableB s now → ReachableB (deleteNote s id) now
  | sel {s : AppState} {now : Int} (id : String) :
      ReachableB s now → ReachableB (selectNote s id) now
  | autosel {s : AppState} {now : Int} (n : Note) (rest : List Note) :
      ReachableB s now → s.selectedId = none → s.notes = n :: rest →
      ReachableB ⟨s.notes, some n.id⟩ now
  | importFail {s : AppState} {now : Int} :
      ReachableB s now → ReachableB (importApply s .corrupt) now
  | importShape {s : AppState} {now : Int} :
      ReachableB s now → ReachableB (importApply s .nonArray) now
  | importArr {s : AppState} {now : Int} (imported : List Note) :
      ReachableB s now → (∀ n ∈ imported, n.updatedAt ≤ now) →
      ReachableB (importApply s (.array imported)) now

/-! ### Sorting lemmas -/

theorem perm_sortByStamp {α : Type} (stamp : α → Int) (l : List α) :
    List.Perm (sortByStamp stamp l) l :=
  List.perm_insertionSort _ l

theorem mem_sortByStamp {α : Type} (stamp : α → Int) (l : List α) (a : α) :
    a ∈ sortByStamp stamp l ↔ a ∈ l :=
  (perm_sortByStamp stamp l).mem_iff

theorem sorted_sortByStamp {α : Type} (stamp : α → Int) (l : List α) :
    List.Sorted (byStamp stamp) (sortByStamp stamp l) :=
  List.sorted_insertionSort _ l

theorem orderedInsert_map {α β : Type} (sa : α → Int) (sb : β → Int)
    (f : α → β) (h : ∀ a, sb (f a) = sa a) (a : α) (l : List α) :
    (l.map f).orderedInsert (byStamp sb) (f a)
      = (l.orderedInsert (byStamp sa) a).map f := by
  induction l with
  | nil => rfl
  | cons b bs ih =>
    have hcond : byStamp sb (f a) (f b) ↔ byStamp sa a b := by
      simp [byStamp, h]
    simp only [List.orderedInsert, List.map]
    by_cases hc : byStamp sa a b
    · rw [if_pos (hcond.mpr hc), if_pos hc]
      rfl
    · rw [if_neg (fun hx => hc (hcond.mp hx)), if_neg hc]
      simp [ih]

theorem sortByStamp_map {α β : Type} (sa : α → Int) (sb : β → Int)
    (f : α → β) (h : ∀ a, sb (f a) = sa a) (l : List α) :
    sortByStamp sb (l.map f) = (sortByStamp sa l).map f := by
  induction l with
  | nil => rfl
  | cons a as ih =>
    simp only [sortByStamp, List.map, List.insertionSort] at *
    rw [ih]
    exact orderedInsert_map sa sb f h a _

/-! ### Lemmas about dropWhile and trimming -/

theorem dropWhile_cons_eq {α : Type} (p : α → Bool) (c : α) (cs : List α) :
    (c :: cs).dropWhile p = if p c then cs.dropWhile p else c :: cs := by
  simp only [List.dropWhile]
  by_cases h : p c <;> simp [h]

theorem dropWhile_head_false {α : Type} (p : α → Bool) :
    ∀ (l : List α) (c : α) (cs : List α),
      l.dropWhile p = c :: cs → p c = false := by
  intro l
  induction l with
  | nil => intro c cs h; cases h
  | cons a as ih =>
    intro c cs h
    rw [dropWhile_cons_eq] at h
    by_cases ha : p a
    · rw [if_pos ha] at h
      exact ih c cs h
    · rw [if_neg ha] at h
      cases h
      exact Bool.eq_false_iff.mpr ha

theorem dropWhile_of_head_false {α : Type} (p : α → Bool) (l : List α)
    (h : ∀ c cs, l = c :: cs → p c = false) : l.dropWhile p = l := by
  cases l with
  | nil => rfl
  | cons a as =>
    rw [dropWhile_cons_eq, if_neg]
    simp [h a as rfl]

theorem dropWhile_idem {α : Type} (p : α → Bool) (l : List α) :
    (l.dropWhile p).dropWhile p = l.dropWhile p :=
  dropWhile_of_head_false p _ (fun c cs h => dropWhile_head_false p l c cs h)

theorem dropWhile_isSuffix {α : Type} (p : α → Bool) (l : List α) :
    List.IsSuffix (l.dropWhile p) l := by
  induction l with
  | nil => exact ⟨[], rfl⟩
  | cons a as ih =>
    rw [dropWhile_cons_eq]
    by_cases h : p a
    · rw [if_pos h]
      obtain ⟨t, ht⟩ := ih
      exact ⟨a :: t, by simp [ht]⟩
    · rw [if_neg h]

theorem dropWhile_of_all {α : Type} (p : α → Bool) (l : List α)
    (h : l.all p) : l.dropWhile p = [] := by
  induction l with
  | nil => rfl
  | cons a as ih =>
    simp only [List.all_cons, Bool.and_eq_true] at h
    rw [dropWhile_cons_eq, if_pos h.1]
    exact ih h.2

theorem trimChars_idem (s : String) :
    trimChars (trimChars s) = trimChars s := by
  unfold trimChars
  congr 1
  set p := Char.isWhitespace
  set A := s.data.dropWhile p with hA
  -- the result of the inner trim, no longer mentioning the string
  set X := (A.reverse.dropWhile p).reverse with hX
  have hXsuffix : List.IsSuffix (A.reverse.dropWhile p) A.reverse :=
    dropWhile_isSuffix p A.reverse
  -- X is a prefix of A, so a nonempty X starts with the head of A
  have hXpre : List.IsPrefix X A := by
    obtain ⟨t, ht⟩ := hXsuffix
    refine ⟨t.reverse, ?_⟩
    have := congrArg List.reverse ht
    simpa [hX] using this
  have hXdrop : X.dropWhile p = X := by
    refine dropWhile_of_head_false p X ?_
    intro c cs hcs
    obtain ⟨t, ht⟩ := hXpre
    have : A = c :: (cs ++ t) := by rw [← ht, hcs]; simp
    exact dropWhile_head_false p s.data c (cs ++ t) (by rw [← hA]; exact this)
  have hXrevdrop : X.reverse.dropWhile p = X.reverse := by
    rw [hX, List.reverse_reverse]
    exact dropWhile_idem p A.reverse
  simp only [hXdrop, hXrevdrop, List.reverse_reverse]

theorem trimChars_of_all_whitespace (s : String)
    (h : s.data.all Char.isWhitespace) : trimChars s = "" := by
  unfold trimChars
  rw [dropWhile_of_all _ _ h]
  rfl

/-! ### Lemmas about the merge map -/

/-- Reference combination of an optional current champion with a new
candidate: the candidate replaces the champion only when strictly more
recent. This is the per-element effect of the merge loop. -/
def mergeKeep (o : Option Note) (n : Note) : Option Note :=
  match o with
  | none => some n
  | some b => if b.updatedAt < n.updatedAt then some n else some b

/-- Reference fold of mergeKeep over a list. -/
def bestFrom (o : Option Note) : List Note → Option Note
  | [] => o
  | n :: ns => bestFrom (mergeKeep o n) ns

/-- The variant of a group of notes that the merge keeps: the first one
carrying the maximal updatedAt (a later candidate replaces the champion
only when strictly more recent). -/
def keepBest (l : List Note) : Option Note :=
  bestFrom none l

/-- Key list of the association-list map. -/
abbrev mapKeys (m : List (String × Note)) : List String :=
  m.map Prod.fst

theorem mapGet_set (m : List (String × Note)) (k : String) (v : Note)
    (k' : String) :
    mapGet (mapSet m k v) k' = if k' = k then some v else mapGet m k' := by
  induction m with
  | nil =>
    simp only [mapSet, mapGet]
    by_cases h : k = k'
    · rw [if_pos h, if_pos h.symm]
    · rw [if_neg h, if_neg (fun hx => h hx.symm)]
  | cons p m ih =>
    obtain ⟨k₀, w⟩ := p
    simp only [mapSet]
    by_cases h0 : k₀ = k
    · subst h0
      rw [if_pos rfl]
      simp only [mapGet]
      by_cases h' : k₀ = k'
      · rw [if_pos h', if_pos h'.symm]
      · rw [if_neg h', if_neg (fun hx => h' hx.symm), if_neg h']
    · rw [if_neg h0]
      simp only [mapGet]
      by_cases h0' : k₀ = k'
      · subst h0'
        rw [if_pos rfl, if_neg h0, if_pos rfl]
      · rw [if_neg h0', if_neg h0', ih]

theorem mapGet_eq_none_iff (m : List (String × Note)) (k : String) :
    mapGet m k = none ↔ k ∉ mapKeys m := by
  induction m with
  | nil => simp [mapGet, mapKeys]
  | cons p m ih =>
    obtain ⟨k₀, w⟩ := p
    simp only [mapGet, mapKeys, List.map, List.mem_cons]
    by_cases h : k₀ = k
    · rw [if_pos h]
      simp [h]
    · rw [if_neg h]
      simp only [mapKeys] at ih
      simp only [ih]
      constructor
      · intro hk hor
        rcases hor with hor | hor
        · exact h hor.symm
        · exact hk hor
      · intro hk
        exact fun hm => hk (Or.inr hm)

theorem mapKeys_set_of_none (m : List (String × Note)) (k : String)
    (v : Note) (h : mapGet m k = none) :
    mapKeys (mapSet m k v) = mapKeys m ++ [k] := by
  induction m with
  | nil => rfl
  | cons p m ih =>
    obtain ⟨k₀, w⟩ := p
    simp only [mapGet] at h
    by_cases h0 : k₀ = k
    · rw [if_pos h0] at h
      cases h
    · rw [if_neg h0] at h
      simp only [mapSet, if_neg h0, mapKeys, List.map]
      simp only [mapKeys] at ih
      simp [ih h]

theorem mapKeys_set_of_some (m : List (String × Note)) (k : String)
    (v w : Note) (h : mapGet m k = some w) :
    mapKeys (mapSet m k v) = mapKeys m := by
  induction m with
  | nil => cases h
  | cons p m ih =>
    obtain ⟨k₀, w₀⟩ := p
    simp only [mapGet] at h
    by_cases h0 : k₀ = k
    · simp [mapSet, if_pos h0, mapKeys, h0]
    · rw [if_neg h0] at h
      simp only [mapSet, if_neg h0, mapKeys, List.map]
      simp only [mapKeys] at ih
      simp [ih h]

theorem mergeStep_get_ne (m : List (String × Note)) (n : Note)
    (k : String) (h : k ≠ n.id) :
    mapGet (mergeStep m n) k = mapGet m k := by
  cases hg : mapGet m n.id with
  | none =>
    simp only [mergeStep, hg]
    rw [mapGet_set, if_neg h]
  | some e =>
    simp only [mergeStep, hg]
    by_cases hlt : e.updatedAt < n.updatedAt
    · rw [if_pos hlt, mapGet_set, if_neg h]
    · rw [if_neg hlt]

theorem mergeStep_get_eq (m : List (String × Note)) (n : Note) :
    mapGet (mergeStep m n) n.id = mergeKeep (mapGet m n.id) n := by
  cases hg : mapGet m n.id with
  | none =>
    simp only [mergeStep, mergeKeep, hg]
    rw [mapGet_set, if_pos rfl]
  | some e =>
    simp only [mergeStep, mergeKeep, hg]
    by_cases hlt : e.updatedAt < n.updatedAt
    · rw [if_pos hlt, if_pos hlt, mapGet_set, if_pos rfl]
    · rw [if_neg hlt, if_neg hlt, hg]

theorem foldl_mergeStep_get (l : List Note) :
    ∀ (m : List (String × Note)) (k : String),
      mapGet (l.foldl mergeStep m) k
        = bestFrom (mapGet m k) (l.filter fun n => n.id = k) := by
  induction l with
  | nil => intro m k; rfl
  | cons n ns ih =>
    intro m k
    rw [List.foldl_cons, ih]
    by_cases h : n.id = k
    · subst h
      rw [mergeStep_get_eq]
      simp [bestFrom, List.filter_cons]
    · rw [mergeStep_get_ne m n k (fun hx => h hx.symm)]
      simp [List.filter_cons, h]

theorem mergeKeep_isSome (o : Option Note) (n : Note) :
    ∃ c, mergeKeep o n = some c := by
  cases o with
  | none => exact ⟨n, rfl⟩
  | some b =>
    simp only [mergeKeep]
    by_cases h : b.updatedAt < n.updatedAt
    · exact ⟨n, by rw [if_pos h]⟩
    · exact ⟨b, by rw [if_neg h]⟩

theorem bestFrom_eq_none_iff (l : List Note) (o : Option Note) :
    bestFrom o l = none ↔ o = none ∧ l = [] := by
  induction l generalizing o with
  | nil => simp [bestFrom]
  | cons n ns ih =>
    simp only [bestFrom, ih]
    obtain ⟨c, hc⟩ := mergeKeep_isSome o n
    simp [hc]

theorem mergeKeep_ge (o : Option Note) (n c : Note)
    (h : mergeKeep o n = some c) :
    (∀ b, o = some b → b.updatedAt ≤ c.updatedAt)
      ∧ n.updatedAt ≤ c.updatedAt := by
  cases o with
  | none =>
    cases h
    exact ⟨fun b hb => (nomatch hb), le_refl _⟩
  | some b =>
    simp only [mergeKeep] at h
    by_cases hlt : b.updatedAt < n.updatedAt
    · rw [if_pos hlt] at h
      cases h
      refine ⟨fun b' hb' => ?_, le_refl _⟩
      cases hb'
      exact le_of_lt hlt
    · rw [if_neg hlt] at h
      cases h
      refine ⟨fun b' hb' => ?_, le_of_not_lt hlt⟩
      cases hb'
      exact le_refl _

theorem mergeKeep_cases (o : Option Note) (n c : Note)
    (h : mergeKeep o n = some c) : o = some c ∨ c = n := by
  cases o with
  | none =>
    cases h
    exact Or.inr rfl
  | some b =>
    simp only [mergeKeep] at h
    by_cases hlt : b.updatedAt < n.updatedAt
    · rw [if_pos hlt] at h
      cases h
      exact Or.inr rfl
    · rw [if_neg hlt] at h
      cases h
      exact Or.inl rfl

theorem bestFrom_ge (l : List Note) :
    ∀ (o : Option Note) (n : Note), bestFrom o l = some n →
      (∀ b, o = some b → b.updatedAt ≤ n.updatedAt)
        ∧ ∀ x ∈ l, x.updatedAt ≤ n.updatedAt := by
  induction l with
  | nil =>
    intro o n h
    cases h
    exact ⟨fun b hb => by cases hb; exact le_refl _, by simp⟩
  | cons m ms ih =>
    intro o n h
    rw [bestFrom] at h
    obtain ⟨c, hc⟩ := mergeKeep_isSome o m
    rw [hc] at h
    obtain ⟨ho, hms⟩ := ih (some c) n h
    have hcn : c.updatedAt ≤ n.updatedAt := ho c rfl
    obtain ⟨hob, hmc⟩ := mergeKeep_ge o m c hc
    refine ⟨fun b hb => le_trans (hob b hb) hcn, ?_⟩
    intro x hx
    rcases List.mem_cons.mp hx with hx | hx
    · subst hx
      exact le_trans hmc hcn
    · exact hms x hx

theorem bestFrom_mem (l : List Note) :
    ∀ (o : Option Note) (n : Note), bestFrom o l = some n →
      o = some n ∨ n ∈ l := by
  induction l with
  | nil =>
    intro o n h
    exact Or.inl h
  | cons m ms ih =>
    intro o n h
    rw [bestFrom] at h
    obtain ⟨c, hc⟩ := mergeKeep_isSome o m
    rw [hc] at h
    rcases ih (some c) n h with hcn | hin
    · cases hcn
      rcases mergeKeep_cases o m n hc with ho | hm
      · exact Or.inl ho
      · exact Or.inr (by simp [hm])
    · exact Or.inr (List.mem_cons_of_mem _ hin)

/-- Entries of the merge map carry the note under its own id. -/
def EntriesOk (m : List (String × Note)) : Prop :=
  ∀ p ∈ m, (Prod.snd p).id = p.1

theorem entriesOk_mapSet (m : List (String × Note)) (k : String) (v : Note)
    (hm : EntriesOk m) (hv : v.id = k) : EntriesOk (mapSet m k v) := by
  induction m with
  | nil =>
    intro p hp
    rcases List.mem_singleton.mp hp with rfl
    exact hv
  | cons q m ih =>
    obtain ⟨k₀, w⟩ := q
    simp only [mapSet]
    by_cases h0 : k₀ = k
    · rw [if_pos h0]
      intro p hp
      rcases List.mem_cons.mp hp with rfl | hp
      · exact hv
      · exact hm p (List.mem_cons_of_mem _ hp)
    · rw [if_neg h0]
      intro p hp
      rcases List.mem_cons.mp hp with rfl | hp
      · exact hm _ (List.mem_cons_self _ _)
      · exact ih (fun q hq => hm q (List.mem_cons_of_mem _ hq)) p hp

theorem entriesOk_mergeStep (m : List (String × Note)) (n : Note)
    (hm : EntriesOk m) : EntriesOk (mergeStep m n) := by
  cases hg : mapGet m n.id with
  | none =>
    simp only [mergeStep, hg]
    exact entriesOk_mapSet m n.id n hm rfl
  | some e =>
    simp only [mergeStep, hg]
    by_cases hlt : e.updatedAt < n.updatedAt
    · rw [if_pos hlt]
      exact entriesOk_mapSet m n.id n hm rfl
    · rw [if_neg hlt]
      exact hm

theorem entriesOk_foldl (l : List Note) :
    ∀ m, EntriesOk m → EntriesOk (l.foldl mergeStep m) := by
  induction l with
  | nil => intro m hm; exact hm
  | cons n ns ih =>
    intro m hm
    rw [List.foldl_cons]
    exact ih _ (entriesOk_mergeStep m n hm)

theorem keys_nodup_mergeStep (m : List (String × Note)) (n : Note)
    (hm : (mapKeys m).Nodup) : (mapKeys (mergeStep m n)).Nodup := by
  cases hg : mapGet m n.id with
  | none =>
    simp only [mergeStep, hg]
    rw [mapKeys_set_of_none m n.id n hg]
    have hnotin : n.id ∉ mapKeys m := (mapGet_eq_none_iff m n.id).mp hg
    simp [List.nodup_append, hm, hnotin]
  | some e =>
    simp only [mergeStep, hg]
    by_cases hlt : e.updatedAt < n.updatedAt
    · rw [if_pos hlt, mapKeys_set_of_some m n.id n e hg]
      exact hm
    · rw [if_neg hlt]
      exact hm

theorem keys_nodup_foldl (l : List Note) :
    ∀ m, (mapKeys m).Nodup → (mapKeys (l.foldl mergeStep m)).Nodup := by
  induction l with
  | nil => intro m hm; exact hm
  | cons n ns ih =>
    intro m hm
    rw [List.foldl_cons]
    exact ih _ (keys_nodup_mergeStep m n hm)

theorem mem_keys_of_mem (m : List (String × Note)) (k : String) (v : Note)
    (h : (k, v) ∈ m) : k ∈ mapKeys m :=
  List.mem_map.mpr ⟨(k, v), h, rfl⟩

theorem mapGet_of_mem (m : List (String × Note)) (k : String) (v : Note)
    (hnd : (mapKeys m).Nodup) (h : (k, v) ∈ m) : mapGet m k = some v := by
  induction m with
  | nil => cases h
  | cons q m ih =>
    obtain ⟨k₀, w⟩ := q
    simp only [mapKeys, List.map, List.nodup_cons] at hnd
    rcases List.mem_cons.mp h with heq | hmem
    · cases heq
      simp [mapGet]
    · simp only [mapGet]
      by_cases h0 : k₀ = k
      · subst h0
        exact absurd (mem_keys_of_mem m k₀ v hmem) hnd.1
      · rw [if_neg h0]
        exact ih hnd.2 hmem

theorem values_ids_eq_keys (m : List (String × Note)) (hm : EntriesOk m) :
    (m.map Prod.snd).map Note.id = mapKeys m := by
  rw [List.map_map]
  exact List.map_congr_left hm

theorem importMerge_keeps (cur imp : List Note) (n : Note)
    (hn : n ∈ importMerge cur imp) :
    some n = keepBest ((cur ++ imp).filter fun x => x.id = n.id) := by
  have hM := entriesOk_foldl (cur ++ imp) [] (fun p hp => nomatch hp)
  have hnd := keys_nodup_foldl (cur ++ imp) [] List.nodup_nil
  have hv : n ∈ ((cur ++ imp).foldl mergeStep []).map Prod.snd :=
    ((perm_sortByStamp Note.updatedAt _).mem_iff).mp hn
  obtain ⟨p, hp, hpn⟩ := List.mem_map.mp hv
  obtain ⟨k, v⟩ := p
  cases hpn
  have hk : v.id = k := hM (k, v) hp
  have hget := mapGet_of_mem _ k v hnd hp
  rw [foldl_mergeStep_get] at hget
  rw [← hk] at hget
  exact hget.symm

theorem importMerge_mem (cur imp : List Note) (n : Note)
    (hn : n ∈ importMerge cur imp) : n ∈ cur ++ imp := by
  have h := importMerge_keeps cur imp n hn
  rcases bestFrom_mem _ none n h.symm with hcontra | hmem
  · cases hcontra
  · exact List.mem_of_mem_filter hmem

theorem importMerge_max (cur imp : List Note) (n : Note)
    (hn : n ∈ importMerge cur imp) :
    ∀ x ∈ cur ++ imp, x.id = n.id → x.updatedAt ≤ n.updatedAt := by
  intro x hx hid
  have h := importMerge_keeps cur imp n hn
  have hb := bestFrom_ge _ none n h.symm
  exact hb.2 x (List.mem_filter.mpr ⟨hx, by simp [hid]⟩)

theorem importMerge_ids_nodup (cur imp : List Note) :
    ((importMerge cur imp).map Note.id).Nodup := by
  have hM := entriesOk_foldl (cur ++ imp) [] (fun p hp => nomatch hp)
  have hnd := keys_nodup_foldl (cur ++ imp) [] List.nodup_nil
  have hperm : List.Perm ((importMerge cur imp).map Note.id)
      ((((cur ++ imp).foldl mergeStep []).map Prod.snd).map Note.id) :=
    (perm_sortByStamp Note.updatedAt _).map Note.id
  rw [values_ids_eq_keys _ hM] at hperm
  exact hperm.nodup_iff.mpr hnd

theorem importMerge_ids_mem (cur imp : List Note) (k : String) :
    k ∈ (importMerge cur imp).map Note.id
      ↔ k ∈ (cur ++ imp).map Note.id := by
  have hM := entriesOk_foldl (cur ++ imp) [] (fun p hp => nomatch hp)
  have hperm : List.Perm ((importMerge cur imp).map Note.id)
      ((((cur ++ imp).foldl mergeStep []).map Prod.snd).map Note.id) :=
    (perm_sortByStamp Note.updatedAt _).map Note.id
  rw [values_ids_eq_keys _ hM] at hperm
  rw [hperm.mem_iff, ← not_iff_not, ← mapGet_eq_none_iff,
    foldl_mergeStep_get, bestFrom_eq_none_iff]
  simp only [mapGet, true_and]
  rw [List.filter_eq_nil_iff]
  simp [List.mem_map]
  constructor
  · intro h
    exact ⟨fun x hx => h x (Or.inl hx), fun x hx => h x (Or.inr hx)⟩
  · intro h x hx
    rcases hx with hx | hx
    · exact h.1 x hx
    · exact h.2 x hx

theorem importMerge_sorted (cur imp : List Note) :
    SortedNotes (importMerge cur imp) :=
  sorted_sortByStamp Note.updatedAt _

/-! ### Lemmas about load and save -/

theorem filterStringId_toJson (notes : List Note) :
    filterStringId (notes.map Note.toJson) = .ok (notes.map Note.toJson) := by
  induction notes with
  | nil => rfl
  | cons n ns ih =>
    have h1 : getField (Note.toJson n) "id" = .ok (some (.str n.id)) := rfl
    simp only [List.map, filterStringId, h1, ih]

theorem normalizeRecord_toJson (now : Int) (n : Note) :
    normalizeRecord now (Note.toJson n) = Note.toLoaded n := rfl

theorem load_of_save (now : Int) (notes : List Note) :
    loadNotesFromStorage now (saveNotesToStorage notes)
      = (sortNotes notes).map Note.toLoaded := by
  simp only [saveNotesToStorage, loadNotesFromStorage, filterStringId_toJson]
  rw [List.map_map]
  rw [show (normalizeRecord now ∘ Note.toJson) = Note.toLoaded from
    funext fun n => normalizeRecord_toJson now n]
  exact sortByStamp_map Note.updatedAt LoadedNote.updatedAt Note.toLoaded
    (fun a => rfl) notes

theorem getField_error_iff (j : Json) (key : String) :
    getField j key = .error () ↔ j = .null := by
  cases j <;> simp [getField]

theorem filterStringId_error_of_null (elems : List Json)
    (h : Json.null ∈ elems) : filterStringId elems = .error () := by
  induction elems with
  | nil => cases h
  | cons j js ih =>
    rcases List.mem_cons.mp h with rfl | hmem
    · rfl
    · simp only [filterStringId, ih hmem]
      cases hg : getField j "id" with
      | error e => rfl
      | ok idv => rfl

/-- The id check of the load filter as a predicate on one record. -/
def hasStringId (j : Json) : Bool :=
  match j with
  | .obj fs =>
    match lookupField fs "id" with
    | some (.str _) => true
    | _ => false
  | _ => false

theorem filterStringId_ok (elems : List Json) (h : Json.null ∉ elems) :
    filterStringId elems = .ok (elems.filter hasStringId) := by
  induction elems with
  | nil => rfl
  | cons j js ih =>
    have hj : j ≠ Json.null := fun hx => h (hx ▸ List.mem_cons_self j js)
    have hjs : Json.null ∉ js := fun hx => h (List.mem_cons_of_mem _ hx)
    have hrest := ih hjs
    cases j with
    | null => exact absurd rfl hj
    | bool b => simp [filterStringId, getField, hrest, List.filter_cons, hasStringId]
    | num n => simp [filterStringId, getField, hrest, List.filter_cons, hasStringId]
    | str s => simp [filterStringId, getField, hrest, List.filter_cons, hasStringId]
    | arr xs => simp [filterStringId, getField, hrest, List.filter_cons, hasStringId]
    | obj fs =>
      cases hl : lookupField fs "id" with
      | none =>
        simp [filterStringId, getField, hl, hrest, List.filter_cons, hasStringId]
      | some v =>
        cases v <;>
          simp [filterStringId, getField, hl, hrest, List.filter_cons, hasStringId]

theorem load_absent (now : Int) :
    loadNotesFromStorage now .absent = [] := rfl

theorem load_corrupt (now : Int) :
    loadNotesFromStorage now .corrupt = [] := rfl

theorem load_nonArray (now : Int) (j : Json)
    (h : ∀ elems, j ≠ .arr elems) :
    loadNotesFromStorage now (.value j) = [] := by
  cases j with
  | arr elems => exact absurd rfl (h elems)
  | null => rfl
  | bool b => rfl
  | num n => rfl
  | str s => rfl
  | obj fs => rfl

theorem load_null_element (now : Int) (elems : List Json)
    (h : Json.null ∈ elems) :
    loadNotesFromStorage now (.value (.arr elems)) = [] := by
  simp only [loadNotesFromStorage, filterStringId_error_of_null elems h]

theorem load_array (now : Int) (elems : List Json)
    (h : Json.null ∉ elems) :
    loadNotesFromStorage now (.value (.arr elems))
      = sortByStamp LoadedNote.updatedAt
          ((elems.filter hasStringId).map (normalizeRecord now)) := by
  simp only [loadNotesFromStorage, filterStringId_ok elems h]

theorem load_sorted (now : Int) (st : StorageContent) :
    List.Sorted (byStamp LoadedNote.updatedAt)
      (loadNotesFromStorage now st) := by
  cases st with
  | absent => exact List.sorted_nil
  | corrupt => exact List.sorted_nil
  | value j =>
    cases j with
    | arr elems =>
      simp only [loadNotesFromStorage]
      cases hf : filterStringId elems with
      | error e => exact List.sorted_nil
      | ok kept => exact sorted_sortByStamp LoadedNote.updatedAt _
    | null => exact List.sorted_nil
    | bool b => exact List.sorted_nil
    | num n => exact List.sorted_nil
    | str s => exact List.sorted_nil
    | obj fs => exact List.sorted_nil

theorem normalize_title_default (now : Int) (fs : List (String × Json))
    (h : lookupField fs "title" = none ∨ lookupField fs "title" = some .null) :
    (normalizeRecord now (.obj fs)).title = .str "Untitled" := by
  rcases h with h | h <;> simp [normalizeRecord, getField, h]

theorem normalize_content_default (now : Int) (fs : List (String × Json))
    (h : lookupField fs "content" = none
      ∨ lookupField fs "content" = some .null) :
    (normalizeRecord now (.obj fs)).content = .str "" := by
  rcases h with h | h <;> simp [normalizeRecord, getField, h]

theorem normalize_updatedAt_default (now : Int) (fs : List (String × Json))
    (h : ∀ k : Int, lookupField fs "updatedAt" ≠ some (.num k)) :
    (normalizeRecord now (.obj fs)).updatedAt = now := by
  cases hl : lookupField fs "updatedAt" with
  | none => simp [normalizeRecord, getField, hl]
  | some v =>
    cases v with
    | num k => exact absurd hl (h k)
    | null => simp [normalizeRecord, getField, hl]
    | bool b => simp [normalizeRecord, getField, hl]
    | str s => simp [normalizeRecord, getField, hl]
    | arr xs => simp [normalizeRecord, getField, hl]
    | obj gs => simp [normalizeRecord, getField, hl]

theorem normalize_title_kept (now : Int) (fs : List (String × Json))
    (v : Json) (hv : v ≠ .null) (h : lookupField fs "title" = some v) :
    (normalizeRecord now (.obj fs)).title = v := by
  cases v with
  | null => exact absurd rfl hv
  | bool b => simp [normalizeRecord, getField, h]
  | num k => simp [normalizeRecord, getField, h]
  | str s => simp [normalizeRecord, getField, h]
  | arr xs => simp [normalizeRecord, getField, h]
  | obj gs => simp [normalizeRecord, getField, h]

/-! ### Lemmas about the debounced flush -/

/-- Successor relation over the events of a burst: time moves forward and
the gap stays under the 300 millisecond window. -/
abbrev BurstGap (a b : Int × List Note) : Prop :=
  a.1 ≤ b.1 ∧ b.1 < a.1 + 300

theorem onMutation_no_fire (t₀ now : Int) (ns₀ ns : List Note)
    (w : List (Int × List Note)) (h : now < t₀ + 300) :
    onMutation ⟨some (t₀ + 300, ns₀), w⟩ now ns
      = ⟨some (now + 300, ns), w⟩ := by
  simp only [onMutation, fireIfDue]
  rw [if_neg (not_le.mpr h)]

theorem burst_fold (last : Int × List Note) (pre : List (Int × List Note)) :
    ∀ (t₀ : Int) (ns₀ : List Note) (w : List (Int × List Note)),
      List.Chain' BurstGap ((t₀, ns₀) :: (pre ++ [last])) →
      ((pre ++ [last]).foldl (fun s e => onMutation s e.1 e.2)
          ⟨some (t₀ + 300, ns₀), w⟩)
        = ⟨some (last.1 + 300, last.2), w⟩ := by
  induction pre with
  | nil =>
    intro t₀ ns₀ w h
    obtain ⟨hgap, -⟩ := List.chain'_cons.mp h
    simp only [List.nil_append, List.foldl_cons, List.foldl_nil]
    exact onMutation_no_fire t₀ last.1 ns₀ last.2 w hgap.2
  | cons q qs ih =>
    intro t₀ ns₀ w h
    obtain ⟨hgap, htail⟩ := List.chain'_cons.mp h
    simp only [List.cons_append, List.foldl_cons]
    rw [onMutation_no_fire t₀ q.1 ns₀ q.2 w hgap.2]
    exact ih q.1 q.2 w htail

theorem runBurst_writes (pre : List (Int × List Note)) (t : Int)
    (ns : List Note) (h : List.Chain' BurstGap (pre ++ [(t, ns)])) :
    runBurst (pre ++ [(t, ns)]) = ⟨none, [(t + 300, ns)]⟩ := by
  cases pre with
  | nil => rfl
  | cons q qs =>
    simp only [runBurst, List.cons_append, List.foldl_cons]
    have hq : onMutation ⟨none, []⟩ q.1 q.2 = ⟨some (q.1 + 300, q.2), []⟩ := rfl
    rw [hq, burst_fold (t, ns) qs q.1 q.2 []
      (by simpa using h)]
    rfl

/-! ### Lemmas about selection and search -/

theorem selectedNote_of_none (s : AppState) (h : s.selectedId = none) :
    selectedNote s = none := by
  rw [selectedNote, List.find?_eq_none]
  intro n hn
  simp [h]

theorem toLowerStr_eq_empty_iff (s : String) :
    toLowerStr s = "" ↔ s = "" := by
  cases s with
  | mk data =>
    cases data with
    | nil => simp [toLowerStr]
    | cons c cs =>
      constructor
      · intro h
        cases congrArg String.data h
      · intro h
        cases congrArg String.data h

/-- The spec reading of a search hit: the title or the content contains
the query as a case-insensitive substring. -/
def matchesQuery (n : Note) (q : String) : Bool :=
  strContains (toLowerStr n.title) (toLowerStr q)
    || strContains (toLowerStr n.content) (toLowerStr q)

/-! ### The sortedness invariant -/

theorem reachableB_invariant (s : AppState) (now : Int)
    (h : ReachableB s now) :
    SortedNotes s.notes ∧ ∀ n ∈ s.notes, n.updatedAt ≤ now := by
  induction h with
  | init now =>
    exact ⟨List.sorted_nil, fun n hn => absurd hn (List.not_mem_nil n)⟩
  | tick now' h hle ih =>
    exact ⟨ih.1, fun n hn => le_trans (ih.2 n hn) hle⟩
  | loadStep st ns h hload hb ih =>
    rename_i s₀ now₀
    refine ⟨?_, hb⟩
    have hs := load_sorted now₀ st
    rw [hload] at hs
    have hp : List.Pairwise
        (fun a b : Note =>
          byStamp LoadedNote.updatedAt (Note.toLoaded a) (Note.toLoaded b))
        ns := List.pairwise_map.mp hs
    exact hp
  | create rand h ih =>
    constructor
    · exact List.sorted_cons.mpr ⟨fun b hb => ih.2 b hb, ih.1⟩
    · intro n hn
      rcases List.mem_cons.mp hn with rfl | hn
      · exact le_refl _
      · exact ih.2 n hn
  | update p h ih =>
    rename_i s now
    cases hsel : selectedNote s with
    | none =>
      have heq : updateSelected s p now = s := by
        simp [updateSelected, hsel]
      rw [heq]
      exact ih
    | some sel =>
      have hnotes : (updateSelected s p now).notes
          = sortNotes (s.notes.map fun n =>
              if n.id = sel.id then applyPatch n p now else n) := by
        simp [updateSelected, hsel]
      constructor
      · rw [hnotes]
        exact sorted_sortByStamp _ _
      · intro n hn
        rw [hnotes] at hn
        obtain ⟨x, hx, hxn⟩ :=
          List.mem_map.mp ((mem_sortByStamp _ _ n).mp hn)
        by_cases hid : x.id = sel.id
        · rw [if_pos hid] at hxn
          cases hxn
          exact le_refl _
        · rw [if_neg hid] at hxn
          subst hxn
          exact ih.2 x hx
  | del id h ih =>
    constructor
    · exact List.Pairwise.sublist (List.filter_sublist _) ih.1
    · intro n hn
      exact ih.2 n (List.mem_of_mem_filter hn)
  | sel id h ih => exact ih
  | autosel n rest h hse hno ih => exact ih
  | importFail h ih => exact ih
  | importShape h ih => exact ih
  | importArr imported h hb ih =>
    rename_i s now
    constructor
    · exact importMerge_sorted s.notes imported
    · intro n hn
      rcases List.mem_append.mp
        (importMerge_mem s.notes imported n hn) with hn | hn
      · exact ih.2 n hn
      · exact hb n hn

/-! ### The claims -/

/-- Claim C1, amended: the merge import keeps exactly one note per
distinct id occurring in either collection; for each id the kept variant
is the one with the greater updatedAt, and on a tie the variant
encountered FIRST in iteration order (current collection first, then
imported) is kept, since the code overwrites only on a strictly greater
stamp; the result is sorted descending by updatedAt. -/
theorem mergeLastWriterWins (cur imp : List Note) :
    ((importMerge cur imp).map Note.id).Nodup
  ∧ (∀ k, k ∈ (importMerge cur imp).map Note.id
      ↔ k ∈ (cur ++ imp).map Note.id)
  ∧ (∀ n ∈ importMerge cur imp,
      n ∈ cur ++ imp
      ∧ (∀ x ∈ cur ++ imp, x.id = n.id → x.updatedAt ≤ n.updatedAt)
      ∧ some n = keepBest ((cur ++ imp).filter fun x => x.id = n.id))
  ∧ SortedNotes (importMerge cur imp) :=
  ⟨importMerge_ids_nodup cur imp,
   fun k => importMerge_ids_mem cur imp k,
   fun n hn => ⟨importMerge_mem cur imp n hn, importMerge_max cur imp n hn,
     importMerge_keeps cur imp n hn⟩,
   importMerge_sorted cur imp⟩

/-- Witness for C1 at the example of the specification: current holds A
at stamp 100, the import holds A at stamp 200 and B at stamp 50. -/
theorem mergeLastWriterWins_witness :
    (⟨"A", "y", "", 200⟩ : Note)
      ∈ [(⟨"A", "x", "", 100⟩ : Note)]
          ++ [⟨"A", "y", "", 200⟩, ⟨"B", "z", "", 50⟩] :=
  ((mergeLastWriterWins [⟨"A", "x", "", 100⟩]
      [⟨"A", "y", "", 200⟩, ⟨"B", "z", "", 50⟩]).2.2.1
    ⟨"A", "y", "", 200⟩ (by decide)).1

/-- Counterexample to C1 as stated: at an equal updatedAt the code keeps
the variant encountered first (the current one), not the last one, since
the overwrite condition is a strict greater-than. -/
theorem mergeTieKeepsFirst :
    (⟨"A", "x", "", 100⟩ : Note).id = (⟨"A", "y", "", 100⟩ : Note).id
  ∧ (⟨"A", "x", "", 100⟩ : Note).updatedAt
      = (⟨"A", "y", "", 100⟩ : Note).updatedAt
  ∧ importMerge [⟨"A", "x", "", 100⟩] [⟨"A", "y", "", 100⟩]
      = [⟨"A", "x", "", 100⟩]
  ∧ importMerge [⟨"A", "x", "", 100⟩] [⟨"A", "y", "", 100⟩]
      ≠ [⟨"A", "y", "", 100⟩] :=
  ⟨rfl, rfl, by decide, by decide⟩

/-- Claim C2, amended: after every mutation or import the in-memory
collection is sorted descending by updatedAt, for every reachable state
in which externally supplied collections (loads and imports) carry no
timestamp in the future of the clock at which they entered; without that
restriction a create after a future-stamped import breaks the order. -/
theorem sortedAfterMutations (s : AppState) (now : Int)
    (h : ReachableB s now) : SortedNotes s.notes :=
  (reachableB_invariant s now h).1

/-- Witness for C2: a create on the empty initial state. -/
theorem sortedAfterMutations_witness :
    SortedNotes (createNote ⟨[], none⟩ 0 "").notes :=
  sortedAfterMutations _ 0 (ReachableB.create "" (ReachableB.init 0))

/-- Counterexample to C2 as stated: importing a note stamped in the
future and then creating a note reaches a state whose collection is not
sorted descending, because create prepends the new note without a
re-sort. -/
theorem futureStampImportBreaksSort :
    Reachable (createNote (importApply ⟨[], none⟩
        (.array [⟨"B", "b", "", 1000⟩])) 0 "") 0
  ∧ ¬ SortedNotes (createNote (importApply ⟨[], none⟩
        (.array [⟨"B", "b", "", 1000⟩])) 0 "").notes :=
  ⟨Reachable.create "" (Reachable.importStep _ (Reachable.init 0)),
   by decide⟩

/-- Claim C3: saving a collection of well-formed notes and loading it
back returns the original collection sorted descending by updatedAt (no
normalization applies to well-formed notes), and the result is sorted. -/
theorem storageRoundTrip (now : Int) (notes : List Note) :
    loadNotesFromStorage now (saveNotesToStorage notes)
        = (sortNotes notes).map Note.toLoaded
      ∧ List.Sorted (byStamp LoadedNote.updatedAt)
          (loadNotesFromStorage now (saveNotesToStorage notes)) :=
  ⟨load_of_save now notes, load_sorted now _⟩

/-- Claim C4, amended: load returns an empty sequence on an absent key,
a parse failure, or non-array content; an array containing a null
element makes the WHOLE load return empty (the property access on null
raises and the catch returns the empty collection), rather than
discarding only that record; otherwise records without a string id are
discarded, the survivors are normalized (missing or null title becomes
"Untitled", missing or null content becomes the empty string,
non-numeric updatedAt becomes the current time), and the result is
sorted descending by updatedAt. -/
theorem loadNormalization (now : Int) :
    loadNotesFromStorage now .absent = []
  ∧ loadNotesFromStorage now .corrupt = []
  ∧ (∀ j : Json, (∀ elems, j ≠ .arr elems) →
      loadNotesFromStorage now (.value j) = [])
  ∧ (∀ elems, Json.null ∈ elems →
      loadNotesFromStorage now (.value (.arr elems)) = [])
  ∧ (∀ elems, Json.null ∉ elems →
      loadNotesFromStorage now (.value (.arr elems))
        = sortByStamp LoadedNote.updatedAt
            ((elems.filter hasStringId).map (normalizeRecord now)))
  ∧ (∀ fs, (lookupField fs "title" = none
        ∨ lookupField fs "title" = some .null) →
      (normalizeRecord now (.obj fs)).title = .str "Untitled")
  ∧ (∀ fs, (lookupField fs "content" = none
        ∨ lookupField fs "content" = some .null) →
      (normalizeRecord now (.obj fs)).content = .str "")
  ∧ (∀ fs, (∀ k : Int, lookupField fs "updatedAt" ≠ some (.num k)) →
      (normalizeRecord now (.obj fs)).updatedAt = now)
  ∧ (∀ st, List.Sorted (byStamp LoadedNote.updatedAt)
      (loadNotesFromStorage now st)) :=
  ⟨load_absent now, load_corrupt now,
   fun j hj => load_nonArray now j hj,
   fun elems h => load_null_element now elems h,
   fun elems h => load_array now elems h,
   fun fs h => normalize_title_default now fs h,
   fun fs h => normalize_content_default now fs h,
   fun fs h => normalize_updatedAt_default now fs h,
   fun st => load_sorted now st⟩

/-- Witness for C4: a lone null element empties the load, and a string
payload is not an array. -/
theorem loadNormalization_witness :
    loadNotesFromStorage 7 (.value (.arr [Json.null])) = []
  ∧ loadNotesFromStorage 7 (.value (.str "x")) = [] :=
  ⟨(loadNormalization 7).2.2.2.1 [Json.null] (List.mem_cons_self _ _),
   (loadNormalization 7).2.2.1 (.str "x")
     (fun _ hx => Json.noConfusion hx)⟩

/-- Counterexample to C4 as stated: a well-formed record accompanied by
a null element is NOT kept (the whole load empties), while the same
record alone survives; so a record failing the id access does not merely
get discarded. -/
theorem loadNullElementDropsAll :
    loadNotesFromStorage 0 (.value (.arr
        [Json.null,
         Json.obj [("id", Json.str "g"), ("title", Json.str "t"),
                   ("content", Json.str "c"), ("updatedAt", Json.num 5)]]))
      = []
  ∧ loadNotesFromStorage 0 (.value (.arr
        [Json.obj [("id", Json.str "g"), ("title", Json.str "t"),
                   ("content", Json.str "c"), ("updatedAt", Json.num 5)]]))
      = [⟨"g", Json.str "t", Json.str "c", 5⟩] :=
  ⟨rfl, rfl⟩

/-- Claim C5, amended: createNote builds a note with title "Untitled",
empty content, updatedAt equal to now, prepends it and selects it; its
id is fresh PROVIDED the generated timestamp-plus-random id does not
already occur in the collection — the code performs no collision check,
so freshness is an assumption on the random fragment, not a guarantee. -/
theorem createFreshWhenNoCollision (s : AppState) (now : Int)
    (rand : String) (h : generateId now rand ∉ s.notes.map Note.id) :
    ∃ nn : Note, (createNote s now rand).notes = nn :: s.notes
      ∧ nn.id ∉ s.notes.map Note.id ∧ nn.title = "Untitled"
      ∧ nn.content = "" ∧ nn.updatedAt = now
      ∧ (createNote s now rand).selectedId = some nn.id :=
  ⟨⟨generateId now rand, "Untitled", "", now⟩, rfl, h, rfl, rfl, rfl, rfl⟩

/-- Witness for C5 on the empty collection. -/
theorem createFreshWhenNoCollision_witness :
    ∃ nn : Note, (createNote ⟨[], none⟩ 0 "").notes = nn :: []
      ∧ nn.id ∉ ([] : List Note).map Note.id ∧ nn.title = "Untitled"
      ∧ nn.content = "" ∧ nn.updatedAt = 0
      ∧ (createNote ⟨[], none⟩ 0 "").selectedId = some nn.id :=
  createFreshWhenNoCollision ⟨[], none⟩ 0 "" (by decide)

/-- Counterexample to C5 as stated: a collection already holding the id
the generator is about to produce makes create emit a duplicate id (the
code checks nothing), so the created id IS present in the pre-existing
collection. -/
theorem createIdCollision :
    ((createNote ⟨[⟨"0", "x", "y", 5⟩], none⟩ 0 "").notes.map Note.id)
      = ["0", "0"]
  ∧ "0" ∈ ([⟨"0", "x", "y", 5⟩] : List Note).map Note.id :=
  ⟨by decide, by decide⟩

/-- Claim C6: update touches only the current selection: with no
selected note (no selection, or a selection matching no note) the state
is returned unchanged; otherwise the notes carrying the selected id get
the patch applied and their stamp set to now, every other note is kept
as a record, and the collection is re-sorted descending. -/
theorem updateOnlySelection (s : AppState) (p : NotePatch) (now : Int) :
    (selectedNote s = none → updateSelected s p now = s)
  ∧ (s.selectedId = none → updateSelected s p now = s)
  ∧ ∀ sel, selectedNote s = some sel →
      List.Perm (updateSelected s p now).notes
          (s.notes.map fun n =>
            if n.id = sel.id then applyPatch n p now else n)
      ∧ SortedNotes (updateSelected s p now).notes
      ∧ (updateSelected s p now).selectedId = s.selectedId
      ∧ applyPatch sel p now ∈ (updateSelected s p now).notes
      ∧ ∀ n ∈ s.notes, n.id ≠ sel.id →
          n ∈ (updateSelected s p now).notes := by
  refine ⟨?_, ?_, ?_⟩
  · intro h
    simp [updateSelected, h]
  · intro h
    simp [updateSelected, selectedNote_of_none s h]
  · intro sel hsel
    have hnotes : (updateSelected s p now).notes
        = sortNotes (s.notes.map fun n =>
            if n.id = sel.id then applyPatch n p now else n) := by
      simp [updateSelected, hsel]
    have hperm : List.Perm (updateSelected s p now).notes
        (s.notes.map fun n =>
          if n.id = sel.id then applyPatch n p now else n) := by
      rw [hnotes]
      exact perm_sortByStamp _ _
    refine ⟨hperm, ?_, ?_, ?_, ?_⟩
    · rw [hnotes]
      exact sorted_sortByStamp _ _
    · simp [updateSelected, hsel]
    · have hmem : sel ∈ s.notes := List.mem_of_find?_eq_some hsel
      exact hperm.mem_iff.mpr
        (List.mem_map.mpr ⟨sel, hmem, by rw [if_pos rfl]⟩)
    · intro n hn hne
      exact hperm.mem_iff.mpr
        (List.mem_map.mpr ⟨n, hn, by rw [if_neg hne]⟩)

/-- Witness for C6: a no-op without a selection, and the patched note
lands in the collection when the selection matches. -/
theorem updateOnlySelection_witness :
    updateSelected ⟨[⟨"a", "t", "c", 1⟩], none⟩ ⟨some "T", none⟩ 2
        = ⟨[⟨"a", "t", "c", 1⟩], none⟩
  ∧ applyPatch ⟨"a", "t", "c", 1⟩ ⟨some "T", none⟩ 2
      ∈ (updateSelected ⟨[⟨"a", "t", "c", 1⟩], some "a"⟩
          ⟨some "T", none⟩ 2).notes :=
  ⟨(updateOnlySelection ⟨[⟨"a", "t", "c", 1⟩], none⟩ ⟨some "T", none⟩ 2).1
     (by decide),
   ((updateOnlySelection ⟨[⟨"a", "t", "c", 1⟩], some "a"⟩
       ⟨some "T", none⟩ 2).2.2 ⟨"a", "t", "c", 1⟩ (by decide)).2.2.2.1⟩

/-- Claim C7, amended: matching is performed against the
whitespace-trimmed query; when the trimmed query is empty the full
collection is returned unchanged and in order, otherwise exactly the
notes whose title or content contains the trimmed query as a
case-insensitive substring are returned. The filter is pure. -/
theorem searchFiltersTrimmed (notes : List Note) (q : String) :
    (trimChars q = "" → filteredNotes notes q = notes)
  ∧ (trimChars q ≠ "" →
      filteredNotes notes q
        = notes.filter fun n => matchesQuery n (trimChars q)) := by
  constructor
  · intro h
    have hq : toLowerStr (trimChars q) = "" := by rw [h]; rfl
    simp [filteredNotes, hq]
  · intro h
    have hq : toLowerStr (trimChars q) ≠ "" :=
      fun hx => h ((toLowerStr_eq_empty_iff _).mp hx)
    simp only [filteredNotes, matchesQuery]
    rw [if_neg hq]

/-- Witness for C7: a whitespace query returns everything, a real query
filters by case-insensitive containment. -/
theorem searchFiltersTrimmed_witness :
    filteredNotes [⟨"1", "Hello", "", 0⟩] "  " = [⟨"1", "Hello", "", 0⟩]
  ∧ filteredNotes [⟨"1", "Hello", "", 0⟩] "ELL"
      = List.filter (fun n => matchesQuery n (trimChars "ELL"))
          [⟨"1", "Hello", "", 0⟩] :=
  ⟨(searchFiltersTrimmed [⟨"1", "Hello", "", 0⟩] "  ").1 (by decide),
   (searchFiltersTrimmed [⟨"1", "Hello", "", 0⟩] "ELL").2 (by decide)⟩

/-- Counterexample to C7 as stated: the query a single space is not
empty, yet the search returns a note that does not contain a space —
the code matches against the trimmed query, not the query itself. -/
theorem searchWhitespaceQuery :
    filteredNotes [⟨"1", "x", "", 0⟩] " " = [⟨"1", "x", "", 0⟩]
  ∧ (" " : String) ≠ ""
  ∧ List.filter (fun n => matchesQuery n " ") [⟨"1", "x", "", 0⟩] = [] :=
  ⟨by decide, by decide, by decide⟩

/-- Claim C8: a corrupt or non-array import payload aborts the import
with the in-memory collection completely unchanged; both failure shapes
return the current collection itself and no error escapes (the model
function is total). -/
theorem importAbortUnchanged (notes : List Note) :
    importNotes notes .corrupt = notes
      ∧ importNotes notes .nonArray = notes :=
  ⟨rfl, rfl⟩

/-- Claim C9: a burst of mutations, each arriving less than 300
milliseconds after the previous one, produces exactly one write, 300
milliseconds after the final mutation, holding the final collection;
after the drain no timer is pending (and the single-slot timer of the
model guarantees at most one pending flush at any instant, since
scheduling overwrites the slot after clearing it). -/
theorem debounceOneWrite (pre : List (Int × List Note)) (t : Int)
    (ns : List Note) (h : List.Chain' BurstGap (pre ++ [(t, ns)])) :
    (runBurst (pre ++ [(t, ns)])).writes = [(t + 300, ns)]
      ∧ (runBurst (pre ++ [(t, ns)])).pendingAt = none := by
  rw [runBurst_writes pre t ns h]
  exact ⟨rfl, rfl⟩

/-- Witness for C9: five mutations inside one window yield one write of
the fifth state. -/
theorem debounceOneWrite_witness :
    (runBurst ([(0, []), (100, [⟨"1", "", "", 100⟩]),
        (200, [⟨"2", "", "", 200⟩]), (250, [⟨"3", "", "", 250⟩])]
        ++ [(290, [⟨"5", "", "", 290⟩])])).writes
      = [(590, [⟨"5", "", "", 290⟩])] :=
  (debounceOneWrite [(0, []), (100, [⟨"1", "", "", 100⟩]),
      (200, [⟨"2", "", "", 200⟩]), (250, [⟨"3", "", "", 250⟩])]
    290 [⟨"5", "", "", 290⟩]
    (by norm_num [List.chain'_cons, List.chain'_singleton, BurstGap])).1

/-- Claim C10: search trims the query before matching: a query of only
whitespace returns the full collection unfiltered, and any query returns
the same notes as its trimmed form. -/
theorem searchTrimsQuery (notes : List Note) (q : String) :
    (q.data.all Char.isWhitespace → filteredNotes notes q = notes)
  ∧ filteredNotes notes q = filteredNotes notes (trimChars q) := by
  constructor
  · intro h
    have hq : toLowerStr (trimChars q) = "" := by
      rw [trimChars_of_all_whitespace q h]
      rfl
    simp [filteredNotes, hq]
  · simp only [filteredNotes, trimChars_idem]

/-- Witness for C10: a whitespace-only query leaves the collection
untouched. -/
theorem searchTrimsQuery_witness :
    filteredNotes [⟨"1", "x", "", 0⟩] " " = [⟨"1", "x", "", 0⟩] :=
  (searchTrimsQuery [⟨"1", "x", "", 0⟩] " ").1 (by decide)

example : importMerge [⟨"A", "x", "", 100⟩] [⟨"A", "y", "", 100⟩]
    = [⟨"A", "x", "", 100⟩] := by decide

example : importMerge [⟨"A", "x", "", 100⟩]
    [⟨"A", "y", "", 200⟩, ⟨"B", "z", "", 50⟩]
    = [⟨"A", "y", "", 200⟩, ⟨"B", "z", "", 50⟩] := by decide

example : generateId 0 "" = "0" := by decide

example : generateId 0 "a2f" = "0A2F" := by decide

example : filteredNotes [⟨"1", "x", "", 0⟩] " " = [⟨"1", "x", "", 0⟩] := by
  decide

example : filteredNotes [⟨"1", "Hello World", "", 0⟩, ⟨"2", "x", "", 1⟩]
    " worLD " = [⟨"1", "Hello World", "", 0⟩] := by decide

example :
    runBurst [(0, []), (100, [⟨"a", "t", "c", 100⟩])]
      = ⟨none, [(400, [⟨"a", "t", "c", 100⟩])]⟩ := by decide

example :
    (createNote ⟨[⟨"0", "x", "y", 5⟩], none⟩ 0 "").notes.map Note.id
      = ["0", "0"] := by decide

end QuickNotes
